import Mathlib

/-!
Verification of the atopile compiler front-end's address model, caching
getters, instance assembly and name resolution, as a shallow embedding of
`src/atopile/address.py`, `src/atopile/instance_methods.py` and
`src/atopile/front_end.py`.

Python strings are embedded as `List Char`; Python dicts as insertion-ordered
association lists; fallible code as `Option`/`Except`.
-/

namespace Atopile

/-- Python-style strings, embedded as lists of characters. -/
abbrev PyStr := List Char

/-- `s.split(sep)` for a one-character separator, with Python semantics:
the result is always non-empty and `"".split(c) == [""]`. -/
def splitChar (sep : Char) : PyStr → List PyStr
  | [] => [[]]
  | c :: rest =>
    match splitChar sep rest with
    | [] => [[]]
    | h :: t => if c = sep then [] :: h :: t else (c :: h) :: t

/-- Boolean prefix test on character lists. -/
def isPrefixB : PyStr → PyStr → Bool
  | [], _ => true
  | _ :: _, [] => false
  | a :: as, b :: bs => if a = b then isPrefixB as bs else false

/-- Split a string at the LAST occurrence of a non-empty separator substring,
returning the pieces before and after it; `none` when the separator does not
occur.  This is Python's `s.rsplit(sep, 1)` restricted to the case where
`sep` occurs in `s` (and `sep in s` is `(lastSplitOn sep s).isSome`). -/
def lastSplitOn (sep : PyStr) : PyStr → Option (PyStr × PyStr)
  | [] => none
  | c :: rest =>
    match lastSplitOn sep rest with
    | some (pre, post) => some (c :: pre, post)
    | none =>
      if isPrefixB sep (c :: rest) then some ([], (c :: rest).drop sep.length)
      else none

/-- `s.rsplit(sep, 1)[0]`: the part before the last occurrence of `sep`, or
the whole string when `sep` does not occur (Python returns `[s]` then). -/
def rsplit1_head (sep : PyStr) (s : PyStr) : PyStr :=
  match lastSplitOn sep s with
  | some (pre, _) => pre
  | none => s

/-- Python truthiness of an `Optional[str]`: `None` and `""` are falsy. -/
def truthyOpt : Option PyStr → Bool
  | none => false
  | some s => !s.isEmpty

/-- `address.get_file`: `address.split(":")[0]`. -/
def get_file (address : PyStr) : PyStr :=
  (splitChar ':' address).headD []

/-- `address.get_entry_section`: `address.split(":")[1]`, `None` on
`IndexError`. -/
def get_entry_section (address : PyStr) : Option PyStr :=
  (splitChar ':' address)[1]?

/-- `address.get_instance_section`: `address.split(":")[3]`, `None` on
`IndexError`. -/
def get_instance_section (address : PyStr) : Option PyStr :=
  (splitChar ':' address)[3]?

/-- `address.add_instance`: append an instance segment, introducing the
instance section with `"::"` when it is absent/empty, extending it with
`"."` otherwise. -/
def add_instance (address : PyStr) (inst : PyStr) : PyStr :=
  if truthyOpt (get_instance_section address) then address ++ '.' :: inst
  else address ++ ':' :: ':' :: inst

/-- `address.add_entry`: append an entry segment; raises (here `none`) when
the address already has a (truthy) instance section. -/
def add_entry (address : PyStr) (entry : PyStr) : Option PyStr :=
  if truthyOpt (get_instance_section address) then none
  else if truthyOpt (get_entry_section address) then some (address ++ '.' :: entry)
  else some (address ++ ':' :: entry)

/-- `address.from_parts`: build an address from file, optional entry and
optional instance parts (Python's `if entry:` / `if instance:` truthiness). -/
def from_parts (file : PyStr) (entry inst : Option PyStr) : Option PyStr :=
  let step1 : Option PyStr :=
    if truthyOpt entry then add_entry file (entry.getD []) else some file
  match step1 with
  | none => none
  | some a =>
    if truthyOpt inst then some (add_instance a (inst.getD [])) else some a

/-- `instance_methods.get_parent`: `None` when `"::"` is absent; otherwise
split off the trailing instance path and strip one segment. -/
def get_parent (addr : PyStr) : Option PyStr :=
  match lastSplitOn [':', ':'] addr with
  | none => none
  | some (root_path, instance_path) =>
    if '.' ∈ instance_path then some (rsplit1_head ['.'] addr)
    else if instance_path ≠ [] then some root_path
    else none

/-! ### Basic lemmas about the string splitters -/

theorem splitChar_ne_nil (sep : Char) (s : PyStr) : splitChar sep s ≠ [] := by
  cases s with
  | nil => simp [splitChar]
  | cons c rest =>
    simp only [splitChar]
    cases h : splitChar sep rest with
    | nil => simp
    | cons h t =>
      by_cases hc : c = sep <;> simp [hc]

theorem splitChar_of_not_mem {sep : Char} {s : PyStr} (h : sep ∉ s) :
    splitChar sep s = [s] := by
  induction s with
  | nil => rfl
  | cons c rest ih =>
    have hc : c ≠ sep := fun hcs => h (hcs ▸ List.mem_cons_self c rest)
    have hrest : sep ∉ rest := fun hm => h (List.mem_cons_of_mem c hm)
    simp only [splitChar, ih hrest]
    simp [hc]

theorem splitChar_append_cons {sep : Char} {x : PyStr} (y : PyStr)
    (h : sep ∉ x) : splitChar sep (x ++ sep :: y) = x :: splitChar sep y := by
  induction x with
  | nil =>
    simp only [List.nil_append, splitChar]
    cases hsp : splitChar sep y with
    | nil => exact absurd hsp (splitChar_ne_nil sep y)
    | cons h t => simp
  | cons c rest ih =>
    have hc : c ≠ sep := fun hcs => h (hcs ▸ List.mem_cons_self c rest)
    have hrest : sep ∉ rest := fun hm => h (List.mem_cons_of_mem c hm)
    simp only [List.cons_append, splitChar, List.append_eq]
    rw [ih hrest]
    simp [hc]

theorem isPrefixB_single_false {c : Char} {s : PyStr} (h : c ∉ s) :
    isPrefixB [c] s = false := by
  cases s with
  | nil => rfl
  | cons d ys =>
    have hd : c ≠ d := fun hcd => h (hcd ▸ List.mem_cons_self d ys)
    simp [isPrefixB, hd]

theorem lastSplitOn_single_of_not_mem {c : Char} {s : PyStr} (h : c ∉ s) :
    lastSplitOn [c] s = none := by
  induction s with
  | nil => rfl
  | cons d rest ih =>
    have hd : c ≠ d := fun hcd => h (hcd ▸ List.mem_cons_self d rest)
    have hrest : c ∉ rest := fun hm => h (List.mem_cons_of_mem d hm)
    simp only [lastSplitOn]
    rw [ih hrest]
    simp [isPrefixB, hd]

theorem lastSplitOn_colon2_of_not_mem {s : PyStr} (h : ':' ∉ s) :
    lastSplitOn [':', ':'] s = none := by
  induction s with
  | nil => rfl
  | cons d rest ih =>
    have hd : (':' : Char) ≠ d := fun hcd => h (hcd ▸ List.mem_cons_self d rest)
    have hrest : ':' ∉ rest := fun hm => h (List.mem_cons_of_mem d hm)
    simp only [lastSplitOn]
    rw [ih hrest]
    simp [isPrefixB, hd]

theorem lastSplitOn_single_append {c : Char} {y : PyStr} (x : PyStr) (h : c ∉ y) :
    lastSplitOn [c] (x ++ c :: y) = some (x, y) := by
  induction x with
  | nil =>
    simp only [List.nil_append, lastSplitOn]
    rw [lastSplitOn_single_of_not_mem h]
    simp [isPrefixB]
  | cons d rest ih =>
    simp only [List.cons_append, lastSplitOn, List.append_eq]
    rw [ih]

theorem lastSplitOn_colon2_append {y : PyStr} (x : PyStr) (h : ':' ∉ y) :
    lastSplitOn [':', ':'] (x ++ ':' :: ':' :: y) = some (x, y) := by
  induction x with
  | nil =>
    have hy : lastSplitOn [':', ':'] y = none := lastSplitOn_colon2_of_not_mem h
    have hpre : isPrefixB [':'] y = false := isPrefixB_single_false h
    simp only [List.nil_append, lastSplitOn]
    rw [hy]
    simp [isPrefixB, hpre]
  | cons d rest ih =>
    simp only [List.cons_append, lastSplitOn, List.append_eq]
    rw [ih]

/-! ### Well-formed address shapes

`entry_addr f e` is `"f:e"`; `inst_addr f e p` is `"f:e::p"`; `ctx_addr`
is the address of an instance-tree node whose instance path is the dotted
join of `segs`. -/

/-- A sane name segment: non-empty, free of the separators `':'` and `'.'`. -/
def GoodSeg (s : PyStr) : Prop := s ≠ [] ∧ ':' ∉ s ∧ '.' ∉ s

instance (s : PyStr) : Decidable (GoodSeg s) := by
  unfold GoodSeg
  infer_instance

/-- Address `"file:entry"`. -/
def entry_addr (f e : PyStr) : PyStr := f ++ ':' :: e

/-- Address `"file:entry::ipath"`. -/
def inst_addr (f e ipath : PyStr) : PyStr := f ++ ':' :: (e ++ ':' :: ':' :: ipath)

/-- Join path segments with `'.'` (Python's `".".join`). -/
def joinDots : List PyStr → PyStr
  | [] => []
  | [s] => s
  | s :: t :: rest => s ++ '.' :: joinDots (t :: rest)

/-- Address of a node reached from entry `"f:e"` by the instance segments
`segs` (the node itself for `segs = []`). -/
def ctx_addr (f e : PyStr) (segs : List PyStr) : PyStr :=
  match segs with
  | [] => entry_addr f e
  | _ :: _ => inst_addr f e (joinDots segs)

theorem joinDots_ne_nil {segs : List PyStr} (h : segs ≠ [])
    (hne : ∀ s ∈ segs, s ≠ []) : joinDots segs ≠ [] := by
  match segs with
  | [] => exact absurd rfl h
  | [s] => exact hne s (List.mem_singleton_self s)
  | s :: t :: rest =>
    have hs : s ≠ [] := hne s (List.mem_cons_self _ _)
    simp [joinDots, hs]

theorem joinDots_not_mem {c : Char} : ∀ {segs : List PyStr},
    (∀ s ∈ segs, c ∉ s) → c ≠ '.' → c ∉ joinDots segs
  | [], _, _ => by simp [joinDots]
  | [s], h, _ => by simpa [joinDots] using h s (List.mem_singleton_self s)
  | s :: t :: rest, h, hc => by
    have hs : c ∉ s := h s (List.mem_cons_self _ _)
    have hrest : c ∉ joinDots (t :: rest) :=
      joinDots_not_mem (fun x hx => h x (List.mem_cons_of_mem s hx)) hc
    simp only [joinDots, List.mem_append, List.mem_cons]
    rintro (hmem | hdot | hmem)
    · exact hs hmem
    · exact hc hdot
    · exact hrest hmem

theorem splitChar_cons_sep (sep : Char) (y : PyStr) :
    splitChar sep (sep :: y) = [] :: splitChar sep y := by
  have h := @splitChar_append_cons sep [] y (by simp)
  simpa using h

theorem splitChar_entry_addr {f e : PyStr} (hf : ':' ∉ f) (he : ':' ∉ e) :
    splitChar ':' (entry_addr f e) = [f, e] := by
  unfold entry_addr
  rw [splitChar_append_cons e hf, splitChar_of_not_mem he]

theorem splitChar_inst_addr {f e i : PyStr} (hf : ':' ∉ f) (he : ':' ∉ e)
    (hi : ':' ∉ i) : splitChar ':' (inst_addr f e i) = [f, e, [], i] := by
  unfold inst_addr
  rw [splitChar_append_cons _ hf, splitChar_append_cons _ he,
    splitChar_cons_sep, splitChar_of_not_mem hi]

theorem get_instance_section_entry_addr {f e : PyStr} (hf : ':' ∉ f)
    (he : ':' ∉ e) : get_instance_section (entry_addr f e) = none := by
  simp [get_instance_section, splitChar_entry_addr hf he]

theorem get_instance_section_inst_addr {f e i : PyStr} (hf : ':' ∉ f)
    (he : ':' ∉ e) (hi : ':' ∉ i) :
    get_instance_section (inst_addr f e i) = some i := by
  simp [get_instance_section, splitChar_inst_addr hf he hi]

theorem get_parent_entry_addr_ext {f e seg : PyStr} (hseg : GoodSeg seg) :
    get_parent (entry_addr f e ++ ':' :: ':' :: seg) = some (entry_addr f e) := by
  obtain ⟨hne, hcol, hdot⟩ := hseg
  unfold get_parent
  rw [lastSplitOn_colon2_append (entry_addr f e) hcol]
  simp [hdot, hne]

theorem get_parent_inst_addr_ext {f e ipath seg : PyStr} (hip : ':' ∉ ipath)
    (hseg : GoodSeg seg) :
    get_parent (inst_addr f e ipath ++ '.' :: seg) = some (inst_addr f e ipath) := by
  obtain ⟨hne, hcol, hdot⟩ := hseg
  have hshape : inst_addr f e ipath ++ '.' :: seg
      = (f ++ ':' :: e) ++ ':' :: ':' :: (ipath ++ '.' :: seg) := by
    simp [inst_addr, List.append_assoc]
  have hy : ':' ∉ ipath ++ '.' :: seg := by
    simp only [List.mem_append, List.mem_cons]
    rintro (hmem | hdot2 | hmem)
    · exact hip hmem
    · exact absurd hdot2 (by decide)
    · exact hcol hmem
  unfold get_parent
  rw [hshape, lastSplitOn_colon2_append (f ++ ':' :: e) hy]
  have hmemdot : '.' ∈ ipath ++ '.' :: seg := by simp
  simp only [hmemdot, if_pos]
  rw [← hshape]
  unfold rsplit1_head
  rw [lastSplitOn_single_append (inst_addr f e ipath) hdot]

/-- The key address-algebra fact behind parent/child navigation: appending
one good segment to a well-formed node address and taking `get_parent`
returns the original address. -/
theorem get_parent_add_instance_ctx (f e : PyStr) (segs : List PyStr)
    (seg : PyStr) (hf : ':' ∉ f) (he : ':' ∉ e)
    (hsegs : ∀ s ∈ segs, GoodSeg s) (hseg : GoodSeg seg) :
    get_parent (add_instance (ctx_addr f e segs) seg) = some (ctx_addr f e segs) := by
  match segs with
  | [] =>
    unfold add_instance
    rw [show ctx_addr f e [] = entry_addr f e from rfl,
      get_instance_section_entry_addr hf he]
    have htr : truthyOpt (none : Option PyStr) = false := rfl
    rw [htr]
    simpa using get_parent_entry_addr_ext (f := f) (e := e) hseg
  | s :: rest =>
    have hip : ':' ∉ joinDots (s :: rest) :=
      joinDots_not_mem (fun x hx => (hsegs x hx).2.1) (by decide)
    have hipne : joinDots (s :: rest) ≠ [] :=
      joinDots_ne_nil (by simp) (fun x hx => (hsegs x hx).1)
    unfold add_instance
    rw [show ctx_addr f e (s :: rest) = inst_addr f e (joinDots (s :: rest)) from rfl,
      get_instance_section_inst_addr hf he hip]
    have htr : truthyOpt (some (joinDots (s :: rest))) = true := by
      simp [truthyOpt, hipne]
    rw [htr]
    simpa using get_parent_inst_addr_ext (f := f) (e := e) hip hseg

/-- Well-formedness of an optional address part. -/
def GoodOptPart : Option PyStr → Prop
  | none => True
  | some s => GoodSeg s

instance : ∀ (o : Option PyStr), Decidable (GoodOptPart o)
  | none => .isTrue trivial
  | some s => inferInstanceAs (Decidable (GoodSeg s))

theorem get_instance_section_of_no_colon {f : PyStr} (hf : ':' ∉ f) :
    get_instance_section f = none := by
  simp [get_instance_section, splitChar_of_not_mem hf]

theorem get_entry_section_of_no_colon {f : PyStr} (hf : ':' ∉ f) :
    get_entry_section f = none := by
  simp [get_entry_section, splitChar_of_not_mem hf]

theorem add_entry_file {f e : PyStr} (hf : ':' ∉ f) :
    add_entry f e = some (entry_addr f e) := by
  unfold add_entry
  rw [get_instance_section_of_no_colon hf, get_entry_section_of_no_colon hf]
  simp [truthyOpt, entry_addr]

theorem add_instance_entry_addr {f e : PyStr} (i : PyStr) (hf : ':' ∉ f)
    (he : ':' ∉ e) : add_instance (entry_addr f e) i = inst_addr f e i := by
  unfold add_instance
  rw [get_instance_section_entry_addr hf he]
  simp [truthyOpt, inst_addr, entry_addr, List.append_assoc]

/-- C7 counterexample: building an address from a file part and an instance
part but NO entry part gives `"f::i"`, from which `get_instance_section`
reads back `none` (index 3 of `["f", "", "i"]` is out of range) rather than
the original instance part, and `get_entry_section` reads back `""` rather
than `none`.  So the round-trip claimed for every combination of optional
parts fails whenever the instance part is present without an entry part. -/
theorem from_parts_no_entry_not_roundtrip :
    from_parts ['f'] none (some ['i']) = some ['f', ':', ':', 'i'] ∧
    get_instance_section ['f', ':', ':', 'i'] = none ∧
    get_entry_section ['f', ':', ':', 'i'] = some [] := by decide

/-- C7 (amended): for non-empty, separator-free parts, `from_parts` followed
by `get_file`/`get_entry_section`/`get_instance_section` returns exactly the
original parts, provided an instance part is only given together with an
entry part. -/
theorem from_parts_getters_roundtrip (f : PyStr) (e i : Option PyStr)
    (hf : GoodSeg f) (he : GoodOptPart e) (hi : GoodOptPart i)
    (hei : i.isSome → e.isSome) :
    ∃ a, from_parts f e i = some a ∧
      get_file a = f ∧ get_entry_section a = e ∧ get_instance_section a = i := by
  match e, i with
  | none, none =>
    refine ⟨f, ?_, ?_, ?_, ?_⟩
    · simp [from_parts, truthyOpt]
    · simp [get_file, splitChar_of_not_mem hf.2.1]
    · exact get_entry_section_of_no_colon hf.2.1
    · exact get_instance_section_of_no_colon hf.2.1
  | none, some i' =>
    have h := hei (by simp)
    simp at h
  | some e', none =>
    have hene : ¬e'.isEmpty := by simp [List.isEmpty_eq_true]; exact he.1
    refine ⟨entry_addr f e', ?_, ?_, ?_, ?_⟩
    · simp [from_parts, truthyOpt, hene, add_entry_file hf.2.1]
    · simp [get_file, splitChar_entry_addr hf.2.1 he.2.1]
    · simp [get_entry_section, splitChar_entry_addr hf.2.1 he.2.1]
    · simp [get_instance_section, splitChar_entry_addr hf.2.1 he.2.1]
  | some e', some i' =>
    have hene : ¬e'.isEmpty := by simp [List.isEmpty_eq_true]; exact he.1
    have hine : ¬i'.isEmpty := by simp [List.isEmpty_eq_true]; exact hi.1
    refine ⟨inst_addr f e' i', ?_, ?_, ?_, ?_⟩
    · simp [from_parts, truthyOpt, hene, hine, add_entry_file hf.2.1,
        add_instance_entry_addr i' hf.2.1 he.2.1]
    · simp [get_file, splitChar_inst_addr hf.2.1 he.2.1 hi.2.1]
    · simp [get_entry_section, splitChar_inst_addr hf.2.1 he.2.1 hi.2.1]
    · simp [get_instance_section, splitChar_inst_addr hf.2.1 he.2.1 hi.2.1]

/-- Witness for the amended C7 round-trip at concrete parts. -/
theorem from_parts_getters_roundtrip_witness :
    ∃ a, from_parts ['f'] (some ['e']) (some ['i']) = some a ∧
      get_file a = ['f'] ∧ get_entry_section a = some ['e'] ∧
      get_instance_section a = some ['i'] :=
  from_parts_getters_roundtrip ['f'] (some ['e']) (some ['i'])
    (by decide) (by decide) (by decide) (by decide)

/-- C9: appending is mutually exclusive by kind.  On an address with a
non-empty instance section `add_entry` raises (returns `none`, changing
nothing) while `add_instance` extends the instance section with `'.'`; on an
address without one `add_entry` succeeds while `add_instance` creates the
instance section with `"::"`. -/
theorem add_entry_vs_add_instance (a e s : PyStr) :
    (truthyOpt (get_instance_section a) = true →
      add_entry a e = none ∧ add_instance a s = a ++ '.' :: s) ∧
    (truthyOpt (get_instance_section a) = false →
      (add_entry a e).isSome = true ∧ add_instance a s = a ++ ':' :: ':' :: s) := by
  constructor
  · intro h
    exact ⟨by simp [add_entry, h], by simp [add_instance, h]⟩
  · intro h
    refine ⟨?_, by simp [add_instance, h]⟩
    by_cases h2 : truthyOpt (get_entry_section a) = true <;> simp [add_entry, h, h2]

/-- Witness for C9 at the concrete address `"f:e::i"`. -/
theorem add_entry_vs_add_instance_witness :
    add_entry ['f', ':', 'e', ':', ':', 'i'] ['g'] = none ∧
    add_instance ['f', ':', 'e', ':', ':', 'i'] ['s']
      = ['f', ':', 'e', ':', ':', 'i', '.', 's'] := by
  have h := (add_entry_vs_add_instance ['f', ':', 'e', ':', ':', 'i'] ['g'] ['s']).1
    (by decide)
  exact ⟨h.1, h.2.trans (by decide)⟩

/-! ### Instance tree model

`front_end.Instance` restricted to the fields the navigation and override
operations touch: its address, its ordered mapping of child name → child
instance, and its own override map (value type `α`). -/

inductive InstanceM (α : Type) : Type where
  | mk (addr : PyStr) (children : List (PyStr × InstanceM α))
      (override_data : List (PyStr × α))

def InstanceM.addr {α} : InstanceM α → PyStr
  | .mk a _ _ => a

def InstanceM.children {α} : InstanceM α → List (PyStr × InstanceM α)
  | .mk _ cs _ => cs

def InstanceM.override_data {α} : InstanceM α → List (PyStr × α)
  | .mk _ _ od => od

instance {α} : Inhabited (InstanceM α) := ⟨.mk [] [] []⟩

instance {α} : Nonempty (InstanceM α) := ⟨.mk [] [] []⟩

/-- `instance_methods.get_children`: the addresses of an instance's children,
in mapping order. -/
def get_children {α} (i : InstanceM α) : List PyStr :=
  i.children.map (fun c => c.2.addr)

mutual

/-- `instance_methods.all_descendants`: depth-first, children before the node
itself, ending with the node's own address. -/
def all_descendants {α} : InstanceM α → List PyStr
  | .mk a cs _ => all_descendants_list cs ++ [a]

def all_descendants_list {α} : List (PyStr × InstanceM α) → List PyStr
  | [] => []
  | (_, t) :: rest => all_descendants t ++ all_descendants_list rest

end

/-- Shape of an instance tree: the tree of child names below a node.
Modelled from the spec: `front_end.Lofty.make_instance` assigns every child
instance the address obtained by appending the child's name to the enclosing
instance's address (the address plumbing of instance construction is not
intact in the provided sources). -/
inductive NameTree : Type where
  | node (children : List (PyStr × NameTree))

def NameTree.children : NameTree → List (PyStr × NameTree)
  | .node cs => cs

mutual

/-- Modelled from the spec: build the instance subtree rooted at `addr`,
giving each child the address `add_instance addr name`. -/
def build_instance (addr : PyStr) : NameTree → InstanceM Unit
  | .node cs => .mk addr (build_children addr cs) []

def build_children (addr : PyStr) : List (PyStr × NameTree) → List (PyStr × InstanceM Unit)
  | [] => []
  | (n, t) :: rest => (n, build_instance (add_instance addr n) t) :: build_children addr rest

end

theorem mem_build_children_addr {addr n : PyStr} {t : NameTree}
    {cs : List (PyStr × NameTree)} (h : (n, t) ∈ cs) :
    add_instance addr n ∈ (build_children addr cs).map (fun c => c.2.addr) := by
  induction cs with
  | nil => exact absurd h (List.not_mem_nil (n, t))
  | cons c rest ih =>
    obtain ⟨m, u⟩ := c
    rcases List.mem_cons.mp h with heq | hmem
    · cases heq
      cases t with
      | node cs2 => simp [build_children, build_instance, InstanceM.addr]
    · simp only [build_children, List.map_cons, List.mem_cons]
      right
      exact ih hmem

/-- C8: for a well-formed node address `P` and a good child name `n` present
in the node's children, the child address `A = add_instance P n` satisfies
`get_parent A = P`, and `A` is among the addresses yielded by
`get_children` of the instance at `P`. -/
theorem get_parent_of_child_and_membership (f e : PyStr) (segs : List PyStr)
    (T : NameTree) (n : PyStr) (t : NameTree)
    (hf : ':' ∉ f) (he : ':' ∉ e) (hsegs : ∀ s ∈ segs, GoodSeg s)
    (hn : GoodSeg n) (hmem : (n, t) ∈ T.children) :
    get_parent (add_instance (ctx_addr f e segs) n) = some (ctx_addr f e segs) ∧
    add_instance (ctx_addr f e segs) n ∈
      get_children (build_instance (ctx_addr f e segs) T) := by
  constructor
  · exact get_parent_add_instance_ctx f e segs n hf he hsegs hn
  · cases T with
    | node cs =>
      simp only [get_children, build_instance, InstanceM.children]
      exact mem_build_children_addr hmem

/-- Witness for C8: parent `"f:e::a"`, child name `"b"`. -/
theorem get_parent_of_child_and_membership_witness :
    get_parent (add_instance (ctx_addr ['f'] ['e'] [['a']]) ['b'])
      = some (ctx_addr ['f'] ['e'] [['a']]) ∧
    add_instance (ctx_addr ['f'] ['e'] [['a']]) ['b'] ∈
      get_children (build_instance (ctx_addr ['f'] ['e'] [['a']])
        (NameTree.node [(['b'], NameTree.node [])])) :=
  get_parent_of_child_and_membership ['f'] ['e'] [['a']]
    (NameTree.node [(['b'], NameTree.node [])]) ['b'] (NameTree.node [])
    (by decide) (by decide) (by decide) (by decide) (by simp [NameTree.children])

/-- C10: `all_descendants` ends with the node's own address (children's
descendants are yielded first), is therefore never empty, and for a leaf is
exactly the singleton of its own address. -/
theorem all_descendants_ends_with_self {α} (t : InstanceM α) :
    all_descendants t ≠ [] ∧
    (all_descendants t).getLast? = some t.addr ∧
    (t.children = [] → all_descendants t = [t.addr]) := by
  cases t with
  | mk a cs od =>
    refine ⟨by simp [all_descendants], ?_, ?_⟩
    · simp [all_descendants, InstanceM.addr]
    · intro h
      simp only [InstanceM.children] at h
      subst h
      simp [all_descendants, all_descendants_list, InstanceM.addr]

/-- Witness for C10 at a concrete leaf instance. -/
theorem all_descendants_ends_with_self_witness :
    all_descendants (InstanceM.mk ['f'] [] ([] : List (PyStr × Nat))) = [['f']] :=
  (all_descendants_ends_with_self (InstanceM.mk ['f'] [] ([] : List (PyStr × Nat)))).2.2
    rfl

/-! ### Multi-segment override application (`Lofty.make_instance`) -/

/-- References: ordered sequences of name segments (`datatypes.Ref`). -/
abbrev Ref := List PyStr

/-- Python dict lookup over an insertion-ordered association list. -/
def alookup {α : Type} : List (PyStr × α) → PyStr → Option α
  | [], _ => none
  | (k, v) :: rest, key => if k = key then some v else alookup rest key

/-- Python dict assignment `m[k] = v`: replace in place when the key exists,
append otherwise. -/
def dict_set {α : Type} (m : List (PyStr × α)) (k : PyStr) (v : α) :
    List (PyStr × α) :=
  if (alookup m k).isSome then
    m.map (fun p => if p.1 = k then (k, v) else p)
  else m ++ [(k, v)]

theorem alookup_dict_set_self {α : Type} (m : List (PyStr × α)) (k : PyStr)
    (v : α) : alookup (dict_set m k v) k = some v := by
  unfold dict_set
  by_cases h : (alookup m k).isSome = true
  · simp only [h, if_pos]
    induction m with
    | nil => simp [alookup] at h
    | cons p rest ih =>
      obtain ⟨k1, v1⟩ := p
      by_cases hk : k1 = k
      · subst hk
        simp only [List.map_cons]
        simp [alookup]
      · simp only [alookup, hk, if_neg, ite_false] at h
        simp only [List.map_cons]
        rw [if_neg (show ¬(k1, v1).1 = k from hk)]
        simp only [alookup, hk, if_neg, ite_false]
        exact ih h
  · simp only [h, if_neg, ite_false]
    induction m with
    | nil => simp [alookup]
    | cons p rest ih =>
      obtain ⟨k1, v1⟩ := p
      by_cases hk : k1 = k
      · simp [alookup, hk] at h
      · simp only [List.cons_append, alookup, hk, if_neg, ite_false]
        simp only [alookup, hk, if_neg, ite_false] at h
        exact ih h

/-- `front_end` error values that matter here. -/
inductive AtoErr : Type where
  | unknownRef (r : Ref)
  | emptyRef
deriving DecidableEq

/-- `Lofty.make_instance._lookup_item_in_children`: descend the `children`
mapping one reference segment at a time; an unknown segment is a hard
error. -/
def _lookup_item_in_children {α : Type} (children : List (PyStr × InstanceM α)) :
    Ref → Except AtoErr (InstanceM α)
  | [] => .error .emptyRef
  | n :: rest =>
    match alookup children n with
    | none => .error (.unknownRef (n :: rest))
    | some i => if rest = [] then .ok i else _lookup_item_in_children i.children rest

/-- Write one override key into an instance's own override map
(`to_override_in.override_data[key_name] = value`). -/
def set_override {α : Type} (i : InstanceM α) (k : PyStr) (v : α) : InstanceM α :=
  .mk i.addr i.children (dict_set i.override_data k v)

/-- Functional image of the in-place write at the end of the descent: rebuild
the `children` mapping with the addressed descendant's override map
updated. -/
def apply_override_in_children {α : Type} (children : List (PyStr × InstanceM α)) :
    Ref → PyStr → α → Except AtoErr (List (PyStr × InstanceM α))
  | [], _, _ => .error .emptyRef
  | n :: rest, key_name, v =>
    match alookup children n with
    | none => .error (.unknownRef (n :: rest))
    | some i =>
      if rest = [] then .ok (dict_set children n (set_override i key_name v))
      else
        match apply_override_in_children i.children rest key_name v with
        | .error err => .error err
        | .ok cs2 => .ok (dict_set children n (.mk i.addr cs2 i.override_data))

/-- One override pair `(key, value)` as applied by `Lofty.make_instance`:
descend to the descendant addressed by `key[:-1]` and set `key[-1]` in its
own override map. -/
def apply_override {α : Type} (children : List (PyStr × InstanceM α))
    (key : Ref) (v : α) : Except AtoErr (List (PyStr × InstanceM α)) :=
  apply_override_in_children children key.dropLast (key.getLastD []) v

theorem lookup_update_path {α : Type} (p : Ref) (k : PyStr) (v : α) :
    ∀ (children : List (PyStr × InstanceM α)),
      (∀ d, _lookup_item_in_children children p = .ok d →
        ∃ cs2, apply_override_in_children children p k v = .ok cs2 ∧
          _lookup_item_in_children cs2 p = .ok (set_override d k v)) ∧
      (∀ err, _lookup_item_in_children children p = .error err →
        apply_override_in_children children p k v = .error err) := by
  induction p with
  | nil =>
    intro children
    constructor
    · intro d hd
      simp [_lookup_item_in_children] at hd
    · intro err herr
      simp only [_lookup_item_in_children] at herr
      have herr2 : AtoErr.emptyRef = err := by injection herr
      simp only [apply_override_in_children]
      rw [herr2]
  | cons n rest ih =>
    intro children
    constructor
    · intro d hd
      cases hl : alookup children n with
      | none =>
        simp only [_lookup_item_in_children, hl] at hd
        exact absurd hd (by simp)
      | some i =>
        by_cases hrest : rest = []
        · subst hrest
          simp only [_lookup_item_in_children, hl, if_pos] at hd
          simp only [Except.ok.injEq] at hd
          subst hd
          refine ⟨dict_set children n (set_override i k v), ?_, ?_⟩
          · simp [apply_override_in_children, hl]
          · simp [_lookup_item_in_children, alookup_dict_set_self]
        · simp only [_lookup_item_in_children, hl, hrest, if_neg, ite_false] at hd
          obtain ⟨cs2, hcs2, hlook⟩ := (ih i.children).1 d hd
          refine ⟨dict_set children n (.mk i.addr cs2 i.override_data), ?_, ?_⟩
          · simp [apply_override_in_children, hl, hrest, hcs2]
          · simp only [_lookup_item_in_children, alookup_dict_set_self, hrest,
              if_neg, ite_false]
            simpa [InstanceM.children] using hlook
    · intro err herr
      cases hl : alookup children n with
      | none =>
        simp only [_lookup_item_in_children, hl] at herr
        have herr2 : AtoErr.unknownRef (n :: rest) = err := by injection herr
        simp only [apply_override_in_children, hl]
        rw [herr2]
      | some i =>
        by_cases hrest : rest = []
        · subst hrest
          simp [_lookup_item_in_children, hl] at herr
        · simp only [_lookup_item_in_children, hl, hrest, if_neg, ite_false] at herr
          have hupd := (ih i.children).2 err herr
          simp [apply_override_in_children, hl, hrest, hupd]

/-- C6: a multi-segment override descends the children mapping segment by
segment to exactly one existing descendant and writes the final key into
that descendant's own override map (readable afterwards, children and
address untouched); an unknown segment anywhere along the descent is a hard
error. -/
theorem make_instance_override_application {α : Type}
    (children : List (PyStr × InstanceM α)) (key : Ref) (v : α)
    (_hlen : 2 ≤ key.length) :
    (∀ d, _lookup_item_in_children children key.dropLast = .ok d →
      ∃ cs2, apply_override children key v = .ok cs2 ∧
        _lookup_item_in_children cs2 key.dropLast
          = .ok (set_override d (key.getLastD []) v) ∧
        alookup (set_override d (key.getLastD []) v).override_data
          (key.getLastD []) = some v ∧
        (set_override d (key.getLastD []) v).children = d.children ∧
        (set_override d (key.getLastD []) v).addr = d.addr) ∧
    (∀ err, _lookup_item_in_children children key.dropLast = .error err →
      apply_override children key v = .error err) := by
  have h := lookup_update_path key.dropLast (key.getLastD []) v children
  constructor
  · intro d hd
    obtain ⟨cs2, hcs2, hlook⟩ := h.1 d hd
    exact ⟨cs2, hcs2, hlook, alookup_dict_set_self d.override_data _ v,
      rfl, rfl⟩
  · exact h.2

/-- Witness for C6: override `a.b.x = 7` lands in the override map of the
grandchild `b`, two levels deep. -/
theorem make_instance_override_application_witness :
    ∃ cs2,
      apply_override
        [(['a'], InstanceM.mk ['A'] [(['b'], InstanceM.mk ['B'] [] [])] [])]
        [['a'], ['b'], ['x']] (7 : Nat) = .ok cs2 ∧
      _lookup_item_in_children cs2 [['a'], ['b']]
        = .ok (set_override (InstanceM.mk ['B'] [] []) ['x'] 7) ∧
      alookup (set_override (InstanceM.mk ['B'] [] ([] : List (PyStr × Nat))) ['x'] 7).override_data
        ['x'] = some 7 ∧
      (set_override (InstanceM.mk ['B'] [] ([] : List (PyStr × Nat))) ['x'] 7).children
        = (InstanceM.mk ['B'] [] ([] : List (PyStr × Nat))).children ∧
      (set_override (InstanceM.mk ['B'] [] ([] : List (PyStr × Nat))) ['x'] 7).addr
        = (InstanceM.mk ['B'] [] ([] : List (PyStr × Nat))).addr := by
  have h := (make_instance_override_application
    [(['a'], InstanceM.mk ['A'] [(['b'], InstanceM.mk ['B'] [] [])] [])]
    [['a'], ['b'], ['x']] (7 : Nat) (by decide)).1
    (InstanceM.mk ['B'] [] []) (by rfl)
  simpa using h

/-! ### Stage caches (`Scoop.get_obj_def`, `Dizzy.get_obj_layer`,
`Lofty.get_instance_tree`) -/

/-- The mutable state of one pipeline stage: its `_output_cache` plus a
count of how many times the stage's builder has run (absent from the code,
added to witness "never rebuilt"). -/
structure StageState (β : Type) where
  output_cache : List (PyStr × β)
  build_count : Nat
deriving DecidableEq

/-- `Scoop.get_obj_def`: on a cache miss, visit the file's AST and register
the whole definition subtree into the cache (`_register_obj_tree`, here the
association list `build addr` of produced registrations), then read the
requested address back out of the cache (`KeyError`, i.e. `none`, when the
build did not register it). -/
def get_obj_def {β : Type} (build : PyStr → List (PyStr × β))
    (s : StageState β) (addr : PyStr) : Option (StageState β × β) :=
  match alookup s.output_cache addr with
  | some v => some (s, v)
  | none =>
    let s2 : StageState β :=
      ⟨(build addr).foldl (fun m kv => dict_set m kv.1 kv.2) s.output_cache,
        s.build_count + 1⟩
    match alookup s2.output_cache addr with
    | some v => some (s2, v)
    | none => none

/-- `Dizzy.get_obj_layer`: memoized construction of one object layer. -/
def get_obj_layer {β : Type} (build : PyStr → β) (s : StageState β)
    (addr : PyStr) : StageState β × β :=
  match alookup s.output_cache addr with
  | some v => (s, v)
  | none =>
    let v := build addr
    (⟨dict_set s.output_cache addr v, s.build_count + 1⟩, v)

/-- `Lofty.get_instance_tree`: memoized construction of one instance tree. -/
def get_instance_tree {β : Type} (build : PyStr → β) (s : StageState β)
    (addr : PyStr) : StageState β × β :=
  match alookup s.output_cache addr with
  | some v => (s, v)
  | none =>
    let v := build addr
    (⟨dict_set s.output_cache addr v, s.build_count + 1⟩, v)

theorem get_obj_def_caches {β : Type} (build : PyStr → List (PyStr × β))
    (s : StageState β) (a : PyStr) (s1 : StageState β) (v1 : β)
    (h : get_obj_def build s a = some (s1, v1)) :
    alookup s1.output_cache a = some v1 := by
  unfold get_obj_def at h
  cases hl : alookup s.output_cache a with
  | some v =>
    rw [hl] at h
    simp only [Option.some.injEq, Prod.mk.injEq] at h
    rw [← h.1, ← h.2]
    exact hl
  | none =>
    rw [hl] at h
    simp only at h
    cases hl2 : alookup
        ((build a).foldl (fun m kv => dict_set m kv.1 kv.2) s.output_cache) a with
    | some v =>
      rw [hl2] at h
      simp only [Option.some.injEq, Prod.mk.injEq] at h
      rw [← h.1, ← h.2]
      exact hl2
    | none =>
      rw [hl2] at h
      simp at h

theorem get_obj_layer_caches {β : Type} (build : PyStr → β)
    (s : StageState β) (a : PyStr) (s1 : StageState β) (v1 : β)
    (h : get_obj_layer build s a = (s1, v1)) :
    alookup s1.output_cache a = some v1 := by
  unfold get_obj_layer at h
  cases hl : alookup s.output_cache a with
  | some v =>
    rw [hl] at h
    simp only [Prod.mk.injEq] at h
    rw [← h.1, ← h.2]
    exact hl
  | none =>
    rw [hl] at h
    simp only [Prod.mk.injEq] at h
    rw [← h.1, ← h.2]
    exact alookup_dict_set_self s.output_cache a (build a)

theorem get_instance_tree_caches {β : Type} (build : PyStr → β)
    (s : StageState β) (a : PyStr) (s1 : StageState β) (v1 : β)
    (h : get_instance_tree build s a = (s1, v1)) :
    alookup s1.output_cache a = some v1 := by
  unfold get_instance_tree at h
  cases hl : alookup s.output_cache a with
  | some v =>
    rw [hl] at h
    simp only [Prod.mk.injEq] at h
    rw [← h.1, ← h.2]
    exact hl
  | none =>
    rw [hl] at h
    simp only [Prod.mk.injEq] at h
    rw [← h.1, ← h.2]
    exact alookup_dict_set_self s.output_cache a (build a)

/-- C1: after a first successful call, each stage getter called again on the
same address answers from the stage's cache (the address is cached, and the
returned state — including the build counter — and object are identical to
the first call's, so nothing is rebuilt). -/
theorem stage_getters_idempotent {β γ δ : Type}
    (buildDef : PyStr → List (PyStr × β)) (buildLayer : PyStr → γ)
    (buildTree : PyStr → δ)
    (sD : StageState β) (sL : StageState γ) (sT : StageState δ) (a : PyStr)
    (s1 : StageState β) (v1 : β) (s2 : StageState γ) (v2 : γ)
    (s3 : StageState δ) (v3 : δ)
    (hD : get_obj_def buildDef sD a = some (s1, v1))
    (hL : get_obj_layer buildLayer sL a = (s2, v2))
    (hT : get_instance_tree buildTree sT a = (s3, v3)) :
    (alookup s1.output_cache a = some v1 ∧
      get_obj_def buildDef s1 a = some (s1, v1)) ∧
    (alookup s2.output_cache a = some v2 ∧
      get_obj_layer buildLayer s2 a = (s2, v2)) ∧
    (alookup s3.output_cache a = some v3 ∧
      get_instance_tree buildTree s3 a = (s3, v3)) := by
  have h1 := get_obj_def_caches buildDef sD a s1 v1 hD
  have h2 := get_obj_layer_caches buildLayer sL a s2 v2 hL
  have h3 := get_instance_tree_caches buildTree sT a s3 v3 hT
  refine ⟨⟨h1, ?_⟩, ⟨h2, ?_⟩, ⟨h3, ?_⟩⟩
  · unfold get_obj_def
    rw [h1]
  · unfold get_obj_layer
    rw [h2]
  · unfold get_instance_tree
    rw [h3]

/-- Witness for C1 with concrete builders and empty caches. -/
theorem stage_getters_idempotent_witness :
    (alookup (StageState.mk [(['x'], 1)] 1).output_cache ['x'] = some 1 ∧
      get_obj_def (fun a => [(a, 1)]) ⟨[(['x'], 1)], 1⟩ ['x']
        = some (⟨[(['x'], 1)], 1⟩, 1)) ∧
    (alookup (StageState.mk [(['x'], 2)] 1).output_cache ['x'] = some 2 ∧
      get_obj_layer (fun _ => 2) ⟨[(['x'], 2)], 1⟩ ['x'] = (⟨[(['x'], 2)], 1⟩, 2)) ∧
    (alookup (StageState.mk [(['x'], 3)] 1).output_cache ['x'] = some 3 ∧
      get_instance_tree (fun _ => 3) ⟨[(['x'], 3)], 1⟩ ['x']
        = (⟨[(['x'], 3)], 1⟩, 3)) :=
  stage_getters_idempotent (fun a => [(a, (1 : Nat))]) (fun _ => (2 : Nat))
    (fun _ => (3 : Nat)) ⟨[], 0⟩ ⟨[], 0⟩ ⟨[], 0⟩ ['x']
    ⟨[(['x'], 1)], 1⟩ 1 ⟨[(['x'], 2)], 1⟩ 2 ⟨[(['x'], 3)], 1⟩ 3
    (by decide) (by decide) (by decide)

/-! ### Layered attribute reads (`Lofty.make_instance` data assembly) -/

/-- `front_end.ObjectLayer` restricted to what attribute reads touch: the
layer's own flat data and its resolved super. -/
inductive ObjectLayerM (α : Type) : Type where
  | mk (data : List (PyStr × α)) (super : Option (ObjectLayerM α))

def ObjectLayerM.data {α} : ObjectLayerM α → List (PyStr × α)
  | .mk d _ => d

/-- Modelled from the spec: `generic_methods.recurse` (absent from the
sources) followed along `layer.super`, giving the super chain most-derived
first, ending at a root layer. -/
def supers_chain {α} : ObjectLayerM α → List (ObjectLayerM α)
  | .mk d none => [.mk d none]
  | .mk d (some p) => .mk d (some p) :: supers_chain p

/-- `collections.ChainMap` lookup: the first mapping containing the key
wins. -/
def chain_lookup {α : Type} : List (List (PyStr × α)) → PyStr → Option α
  | [], _ => none
  | m :: rest, k =>
    match alookup m k with
    | some v => some v
    | none => chain_lookup rest k

/-- The merged read view assembled by `Lofty.make_instance`:
`ChainMap(override_data, *[s.data for s in supers])`. -/
def make_instance_data {α : Type} (super : ObjectLayerM α)
    (override_data : List (PyStr × α)) (k : PyStr) : Option α :=
  chain_lookup (override_data :: (supers_chain super).map ObjectLayerM.data) k

theorem chain_lookup_first {α : Type} (k : PyStr) (v : α) :
    ∀ (pre : List (List (PyStr × α))) (m : List (PyStr × α))
      (post : List (List (PyStr × α))),
      (∀ m2 ∈ pre, alookup m2 k = none) → alookup m k = some v →
      chain_lookup (pre ++ m :: post) k = some v := by
  intro pre
  induction pre with
  | nil =>
    intro m post _ hm
    simp [chain_lookup, hm]
  | cons p rest ih =>
    intro m post hpre hm
    have hp : alookup p k = none := hpre p (List.mem_cons_self _ _)
    simp only [List.cons_append, chain_lookup, hp]
    exact ih m post (fun m2 hm2 => hpre m2 (List.mem_cons_of_mem p hm2)) hm

/-- C2: a read through the merged view returns the instance's own override
when present, otherwise the value of the most-derived super layer whose
flat data contains the name; concretely, with a base layer setting `x` to
`b` an override to `o` reads back `o`, no override reads back `b`, and a
derived layer setting `x` to `d` over the base shadows it. -/
theorem make_instance_data_reads {α : Type} (super : ObjectLayerM α)
    (override_data : List (PyStr × α)) (k : PyStr) (b d o : α) :
    (∀ v, alookup override_data k = some v →
      make_instance_data super override_data k = some v) ∧
    (alookup override_data k = none →
      ∀ pre m post, (supers_chain super).map ObjectLayerM.data = pre ++ m :: post →
        (∀ m2 ∈ pre, alookup m2 k = none) → ∀ v, alookup m k = some v →
          make_instance_data super override_data k = some v) ∧
    make_instance_data (ObjectLayerM.mk [(['x'], b)] none) [(['x'], o)] ['x']
      = some o ∧
    make_instance_data (ObjectLayerM.mk [(['x'], b)] none) [] ['x'] = some b ∧
    make_instance_data
      (ObjectLayerM.mk [(['x'], d)] (some (ObjectLayerM.mk [(['x'], b)] none)))
      [] ['x'] = some d := by
  refine ⟨?_, ?_, ?_, ?_, ?_⟩
  · intro v hv
    simp [make_instance_data, chain_lookup, hv]
  · intro hnone pre m post hdecomp hpre v hv
    unfold make_instance_data
    simp only [chain_lookup, hnone]
    rw [hdecomp]
    exact chain_lookup_first k v pre m post hpre hv
  · simp [make_instance_data, supers_chain, chain_lookup, alookup,
      ObjectLayerM.data]
  · simp [make_instance_data, supers_chain, chain_lookup, alookup,
      ObjectLayerM.data]
  · simp [make_instance_data, supers_chain, chain_lookup, alookup,
      ObjectLayerM.data]

/-- Witness for C2: an override of `x` is read back in preference to the
super layer's value. -/
theorem make_instance_data_reads_witness :
    make_instance_data (ObjectLayerM.mk [(['x'], (1 : Nat))] none)
      [(['x'], 2)] ['x'] = some 2 :=
  (make_instance_data_reads (ObjectLayerM.mk [(['x'], (1 : Nat))] none)
    [(['x'], 2)] ['x'] 1 1 2).1 2 (by decide)

/-! ### Sibling error aggregation (`BaseTranslator.visit_iterable_helper`) -/

/-- The errors raised by the failing children, in visiting order. -/
def errors_of {ε ι : Type} (children : List (Except ε (List (Option ι)))) :
    List ε :=
  children.filterMap (fun c => match c with
    | .error e => some e
    | .ok _ => none)

/-- `BaseTranslator.visit_iterable_helper`: each child statement's visit
either yields items (`none` is the `NOTHING` sentinel, discarded) or raises.
Every child is attempted; errors are appended to `_errors` and, when any
occurred, one `ExceptionGroup` carrying all of them is raised; otherwise the
surviving items are flattened. -/
def visit_iterable_helper {ε ι : Type}
    (children : List (Except ε (List (Option ι)))) : Except (List ε) (List ι) :=
  let _errors := children.foldl (fun acc c => match c with
    | .error e => acc ++ [e]
    | .ok _ => acc) []
  let child_results := children.map (fun c => match c with
    | .ok r => r
    | .error _ => [])
  match _errors with
  | [] => .ok (child_results.flatten.filterMap id)
  | e :: rest => .error (e :: rest)

theorem foldl_errors_eq {ε ι : Type}
    (children : List (Except ε (List (Option ι)))) :
    ∀ acc, children.foldl (fun acc c => match c with
      | .error e => acc ++ [e]
      | .ok _ => acc) acc = acc ++ errors_of children := by
  induction children with
  | nil => intro acc; simp [errors_of]
  | cons c rest ih =>
    intro acc
    cases c with
    | error e => simp [errors_of, List.foldl_cons, ih, List.filterMap_cons]
    | ok r => simp [errors_of, List.foldl_cons, ih, List.filterMap_cons]

/-- C4: every sibling statement is attempted; when none fails no error is
raised and the flattened results survive; when any fails, exactly one
grouped error is raised carrying the recorded failure of every failing
sibling. -/
theorem visit_iterable_helper_aggregates {ε ι : Type}
    (children : List (Except ε (List (Option ι)))) :
    ((∀ c ∈ children, ∀ e, c ≠ .error e) →
      visit_iterable_helper children
        = .ok ((children.map (fun c => match c with
            | .ok r => r
            | .error _ => [])).flatten.filterMap id)) ∧
    (∀ e, Except.error e ∈ children →
      visit_iterable_helper children = .error (errors_of children) ∧
      e ∈ errors_of children) := by
  constructor
  · intro hok
    have herr : errors_of children = [] := by
      unfold errors_of
      rw [List.filterMap_eq_nil_iff]
      intro c hc
      cases c with
      | error e => exact absurd rfl (hok _ hc e)
      | ok r => rfl
    unfold visit_iterable_helper
    rw [foldl_errors_eq children [], List.nil_append, herr]
  · intro e hmem
    have hin : e ∈ errors_of children := by
      unfold errors_of
      exact List.mem_filterMap.mpr ⟨.error e, hmem, rfl⟩
    unfold visit_iterable_helper
    rw [foldl_errors_eq children [], List.nil_append]
    cases herrs : errors_of children with
    | nil =>
      rw [herrs] at hin
      exact absurd hin (List.not_mem_nil e)
    | cons e1 rest =>
      rw [herrs] at hin
      exact ⟨rfl, hin⟩

/-- Witness for C4: two failing siblings, one succeeding sibling between
them — both failures end up in the one raised group. -/
theorem visit_iterable_helper_aggregates_witness :
    visit_iterable_helper
      [Except.error 0, Except.ok [some 1, none], Except.error (2 : Nat)]
      = Except.error [0, 2] ∧
    (0 : Nat) ∈ ([0, 2] : List Nat) := by
  have h := (visit_iterable_helper_aggregates
    [Except.error 0, Except.ok [some (1 : Nat), none], Except.error (2 : Nat)]).2
    0 (by simp)
  exact ⟨h.1.trans (by rfl), by simp⟩

/-! ### Closure-based name resolution (`front_end.lookup_obj_in_closure`) -/

/-- Structured address (file, entry-path).  Modelled from the spec: the
address objects handled by `lookup_obj_in_closure` expose `.file` and `.ref`
attributes and are rebuilt with `from_parts(file, ref)`; that richer address
class is not among the provided sources. -/
structure SAddr where
  file : PyStr
  ref : Ref
deriving DecidableEq

instance : Inhabited SAddr := ⟨⟨[], []⟩⟩

instance {ε α : Type} [DecidableEq ε] [DecidableEq α] :
    DecidableEq (Except ε α) := fun x y =>
  match x, y with
  | .ok a, .ok b =>
    if h : a = b then isTrue (by rw [h])
    else isFalse (fun hc => h (Except.ok.inj hc))
  | .error a, .error b =>
    if h : a = b then isTrue (by rw [h])
    else isFalse (fun hc => h (Except.error.inj hc))
  | .ok _, .error _ => isFalse (fun hc => Except.noConfusion hc)
  | .error _, .ok _ => isFalse (fun hc => Except.noConfusion hc)

/-- Association-list lookup keyed by references. -/
def rlookup {α : Type} : List (Ref × α) → Ref → Option α
  | [], _ => none
  | (k, v) :: rest, key => if k = key then some v else rlookup rest key

/-- One scope of a closure, as `lookup_obj_in_closure` reads it: its local
definitions (each with its attached address) and its imports (each with the
imported object's address). -/
structure ScopeM where
  local_defs : List (Ref × SAddr)
  imports : List (Ref × SAddr)
deriving DecidableEq

inductive LookupErr : Type where
  | ambiguous (name : PyStr)
  | keyErr (r : Ref)
deriving DecidableEq

/-- The five built-ins reachable when no scope matches. -/
def BUILTINS_BY_REF : List (Ref × SAddr) :=
  [(["MODULE".toList], ⟨"<Built-in>".toList, ["Module".toList]⟩),
   (["COMPONENT".toList], ⟨"<Built-in>".toList, ["Component".toList]⟩),
   (["INTERFACE".toList], ⟨"<Built-in>".toList, ["Interface".toList]⟩),
   (["PIN".toList], ⟨"<Built-in>".toList, ["Pin".toList]⟩),
   (["SIGNAL".toList], ⟨"<Built-in>".toList, ["Signal".toList]⟩)]

/-- `front_end.lookup_obj_in_closure`: walk the scopes of the closure in
lookup order; in each scope take the local definition under the first
reference segment (`obj_lead`) and the imports whose first segment matches
(`import_leads`); both matching at once is an ambiguity error; a local
definition wins, then a whole-reference import; after all scopes, the
built-ins; else a key error. -/
def lookup_obj_in_closure : List ScopeM → Ref → Except LookupErr SAddr
  | [], r =>
    match rlookup BUILTINS_BY_REF r with
    | some a => .ok a
    | none => .error (.keyErr r)
  | scope :: rest, r =>
    let obj_lead := rlookup scope.local_defs (r.take 1)
    let import_leads := scope.imports.filter (fun p => p.1.headD [] = r.headD [])
    if (!import_leads.isEmpty && obj_lead.isSome) = true then
      .error (.ambiguous (r.headD []))
    else
      match obj_lead with
      | some a => .ok ⟨a.file, a.ref ++ r.drop 1⟩
      | none =>
        match rlookup scope.imports r with
        | some target => .ok target
        | none => lookup_obj_in_closure rest r

/-- C5 counterexample: the second scope of the closure contains both a local
definition and an import whose first segment matches `x`, yet the lookup
succeeds, because the first scope already resolves `x` and shadows the
ambiguous scope.  So "fails whenever SOME scope contains both" is false as
stated. -/
theorem lookup_shadowed_ambiguous_scope :
    (rlookup (ScopeM.mk [([['x']], ⟨['g'], [['B']]⟩)]
        [([['x']], ⟨['h'], [['C']]⟩)]).local_defs (([['x']] : Ref).take 1)).isSome
      = true ∧
    (ScopeM.mk [([['x']], ⟨['g'], [['B']]⟩)]
        [([['x']], ⟨['h'], [['C']]⟩)]).imports.filter
      (fun p => p.1.headD [] = ([['x']] : Ref).headD []) ≠ [] ∧
    lookup_obj_in_closure
      [ScopeM.mk [([['x']], ⟨['f'], [['A']]⟩)] [],
       ScopeM.mk [([['x']], ⟨['g'], [['B']]⟩)] [([['x']], ⟨['h'], [['C']]⟩)]]
      [['x']]
      = .ok ⟨['f'], [['A']]⟩ := by decide

/-- C5 (amended): the lookup fails with an ambiguity error for a name
whenever the first scope the walk stops at — no earlier scope has a local
definition under the name's first segment nor an import of the whole
reference — contains both a matching local definition and a
first-segment-matching import; the failure is per name: another name with an
unambiguous local definition in that same scope resolves normally. -/
theorem lookup_first_hit_ambiguous (pre post : List ScopeM) (sc : ScopeM)
    (r r2 : Ref)
    (hpre : ∀ s ∈ pre, rlookup s.local_defs (r.take 1) = none ∧
      rlookup s.imports r = none)
    (hobj : (rlookup sc.local_defs (r.take 1)).isSome = true)
    (himp : sc.imports.filter (fun p => p.1.headD [] = r.headD []) ≠ []) :
    lookup_obj_in_closure (pre ++ sc :: post) r
      = .error (.ambiguous (r.headD [])) ∧
    (∀ a, rlookup sc.local_defs (r2.take 1) = some a →
      sc.imports.filter (fun p => p.1.headD [] = r2.headD []) = [] →
      (∀ s ∈ pre, rlookup s.local_defs (r2.take 1) = none ∧
        rlookup s.imports r2 = none) →
      lookup_obj_in_closure (pre ++ sc :: post) r2
        = .ok ⟨a.file, a.ref ++ r2.drop 1⟩) := by
  induction pre with
  | nil =>
    constructor
    · simp only [List.nil_append, lookup_obj_in_closure]
      have hne : (sc.imports.filter
          (fun p => decide (p.1.headD [] = r.headD []))).isEmpty = false := by
        cases hfe : sc.imports.filter (fun p => decide (p.1.headD [] = r.headD [])) with
        | nil => exact absurd hfe himp
        | cons x xs => rfl
      rw [hne, hobj]
      simp
    · intro a ha hnoimp _
      simp only [List.nil_append, lookup_obj_in_closure]
      rw [hnoimp, ha]
      simp [List.isEmpty_nil]
  | cons p rest ih =>
    have hp := hpre p (List.mem_cons_self _ _)
    have hrest : ∀ s ∈ rest, rlookup s.local_defs (r.take 1) = none ∧
        rlookup s.imports r = none :=
      fun s hs => hpre s (List.mem_cons_of_mem p hs)
    have ihr := ih hrest
    constructor
    · simp only [List.cons_append, lookup_obj_in_closure]
      rw [hp.1, hp.2]
      simp only [Option.isSome_none, Bool.and_false]
      exact ihr.1
    · intro a ha hnoimp hpre2
      have hp2 := hpre2 p (List.mem_cons_self _ _)
      have hrest2 : ∀ s ∈ rest, rlookup s.local_defs (r2.take 1) = none ∧
          rlookup s.imports r2 = none :=
        fun s hs => hpre2 s (List.mem_cons_of_mem p hs)
      simp only [List.cons_append, lookup_obj_in_closure]
      rw [hp2.1, hp2.2]
      simp only [Option.isSome_none, Bool.and_false]
      exact ihr.2 a ha hnoimp hrest2

/-- Witness for the amended C5: in the scope that the walk first stops at,
name `x` (local definition and import) is ambiguous while name `y` (local
definition only) still resolves. -/
theorem lookup_first_hit_ambiguous_witness :
    lookup_obj_in_closure
      [ScopeM.mk [] [],
       ScopeM.mk [([['x']], ⟨['g'], [['B']]⟩), ([['y']], ⟨['g'], [['D']]⟩)]
         [([['x']], ⟨['h'], [['C']]⟩)]]
      [['x']]
      = .error (.ambiguous ['x']) ∧
    lookup_obj_in_closure
      [ScopeM.mk [] [],
       ScopeM.mk [([['x']], ⟨['g'], [['B']]⟩), ([['y']], ⟨['g'], [['D']]⟩)]
         [([['x']], ⟨['h'], [['C']]⟩)]]
      [['y']]
      = .ok ⟨['g'], [['D']]⟩ := by
  have h := lookup_first_hit_ambiguous [ScopeM.mk [] []] []
    (ScopeM.mk [([['x']], ⟨['g'], [['B']]⟩), ([['y']], ⟨['g'], [['D']]⟩)]
      [([['x']], ⟨['h'], [['C']]⟩)])
    [['x']] [['y']] (by decide) (by decide) (by decide)
  refine ⟨h.1, ?_⟩
  have h2 := h.2 ⟨['g'], [['D']]⟩ (by decide) (by decide) (by decide)
  exact h2.trans (by decide)

/-! ### Pending replacements (`Lofty.apply_replacements_from_objs`,
`Lofty.make_instance`) -/

/-- `front_end.Replacement`: the reference of the substituting supertype. -/
structure ReplacementM where
  new_super_ref : Ref
deriving DecidableEq

theorem alookup_map_set_ne {α : Type} (k k2 : PyStr) (v : α) (h : k2 ≠ k) :
    ∀ m : List (PyStr × α),
      alookup (m.map (fun p => if p.1 = k then (k, v) else p)) k2 = alookup m k2
  | [] => rfl
  | (k1, v1) :: rest => by
    by_cases hk : k1 = k
    · subst hk
      simp only [List.map_cons, if_true]
      simp only [alookup]
      rw [if_neg (fun hc : k1 = k2 => h hc.symm),
        if_neg (fun hc : k1 = k2 => h hc.symm)]
      exact alookup_map_set_ne k1 k2 v h rest
    · simp only [List.map_cons]
      rw [if_neg (show ¬(k1, v1).1 = k from hk)]
      simp only [alookup]
      by_cases hx : k1 = k2
      · rw [if_pos hx, if_pos hx]
      · rw [if_neg hx, if_neg hx]
        exact alookup_map_set_ne k k2 v h rest

theorem alookup_append_single_ne {α : Type} (k k2 : PyStr) (v : α) (h : k2 ≠ k) :
    ∀ m : List (PyStr × α), alookup (m ++ [(k, v)]) k2 = alookup m k2
  | [] => by
    simp only [List.nil_append, alookup]
    rw [if_neg (fun hc : k = k2 => h hc.symm)]
  | (k1, v1) :: rest => by
    simp only [List.cons_append, alookup]
    by_cases hx : k1 = k2
    · rw [if_pos hx, if_pos hx]
    · rw [if_neg hx, if_neg hx]
      exact alookup_append_single_ne k k2 v h rest

theorem alookup_dict_set_ne {α : Type} (m : List (PyStr × α)) (k k2 : PyStr)
    (v : α) (h : k2 ≠ k) : alookup (dict_set m k v) k2 = alookup m k2 := by
  unfold dict_set
  by_cases hs : (alookup m k).isSome = true
  · rw [if_pos hs]
    exact alookup_map_set_ne k k2 v h m
  · rw [if_neg hs]
    exact alookup_append_single_ne k k2 v h m

theorem alookup_dict_set_isSome_mono {α : Type} (m : List (PyStr × α))
    (k k2 : PyStr) (v : α) (h : (alookup m k2).isSome = true) :
    (alookup (dict_set m k v) k2).isSome = true := by
  by_cases hk : k2 = k
  · subst hk
    rw [alookup_dict_set_self]
    rfl
  · rw [alookup_dict_set_ne m k k2 v hk]
    exact h

/-- `dict.pop(k)` restricted to its removal effect. -/
def dict_pop {α : Type} (m : List (PyStr × α)) (k : PyStr) : List (PyStr × α) :=
  m.filter (fun p => if p.1 = k then false else true)

theorem alookup_dict_pop_self {α : Type} (k : PyStr) :
    ∀ m : List (PyStr × α), alookup (dict_pop m k) k = none
  | [] => rfl
  | (k1, v1) :: rest => by
    by_cases hk : k1 = k
    · simp only [dict_pop, List.filter_cons]
      rw [if_pos hk]
      simp only [if_neg, Bool.false_eq_true, ite_false]
      exact alookup_dict_pop_self k rest
    · simp only [dict_pop, List.filter_cons]
      rw [if_neg hk]
      simp only [ite_true]
      simp only [alookup, hk, if_neg, ite_false]
      exact alookup_dict_pop_self k rest

theorem alookup_dict_pop_none {α : Type} (k k2 : PyStr)
    {m : List (PyStr × α)} (h : alookup m k2 = none) :
    alookup (dict_pop m k) k2 = none := by
  induction m with
  | nil => rfl
  | cons p rest ih =>
    obtain ⟨k1, v1⟩ := p
    simp only [alookup] at h
    by_cases hx : k1 = k2
    · rw [if_pos hx] at h
      exact absurd h (by simp)
    · rw [if_neg hx] at h
      simp only [dict_pop, List.filter_cons]
      by_cases hk : k1 = k
      · rw [if_pos hk]
        simp only [Bool.false_eq_true, if_neg, ite_false]
        exact ih h
      · rw [if_neg hk]
        simp only [ite_true]
        simp only [alookup, hx, if_neg, ite_false]
        exact ih h

/-- Popping every commanded key (`make_instance`'s clean-up loop). -/
def pop_commanded {α : Type} (known : List (PyStr × α)) (cmds : List PyStr) :
    List (PyStr × α) :=
  cmds.foldl (fun m a => dict_pop m a) known

theorem pop_commanded_none {α : Type} (cmds : List PyStr) :
    ∀ (m : List (PyStr × α)) (a : PyStr), alookup m a = none →
      alookup (pop_commanded m cmds) a = none := by
  induction cmds with
  | nil => intro m a h; exact h
  | cons c rest ih =>
    intro m a h
    exact ih (dict_pop m c) a (alookup_dict_pop_none c a h)

theorem pop_commanded_clears {α : Type} (cmds : List PyStr) :
    ∀ (m : List (PyStr × α)) (a : PyStr), a ∈ cmds →
      alookup (pop_commanded m cmds) a = none := by
  induction cmds with
  | nil => intro m a h; exact absurd h (List.not_mem_nil a)
  | cons c rest ih =>
    intro m a h
    rcases List.mem_cons.mp h with rfl | hmem
    · exact pop_commanded_none rest (dict_pop m a) a (alookup_dict_pop_self a m)
    · exact ih (dict_pop m c) a hmem

/-- One step of `Lofty.apply_replacements_from_objs`: key the replacement by
the enclosing instance context extended with the dotted target reference;
register it and command it only when not already pending. -/
def register_one (context : PyStr)
    (st : List (PyStr × ReplacementM) × List PyStr) (rr : Ref × ReplacementM) :
    List (PyStr × ReplacementM) × List PyStr :=
  let to_be_replaced_addr := add_instance context (joinDots rr.1)
  if (alookup st.1 to_be_replaced_addr).isSome = true then st
  else (dict_set st.1 to_be_replaced_addr rr.2, st.2 ++ [to_be_replaced_addr])

/-- `Lofty.apply_replacements_from_objs`: walk every layer's replacement
directives, returning the updated pending map and the list of newly
commanded keys. -/
def apply_replacements_from_objs (context : PyStr)
    (objs : List (List (Ref × ReplacementM)))
    (known : List (PyStr × ReplacementM)) :
    List (PyStr × ReplacementM) × List PyStr :=
  objs.foldl (fun st repls => repls.foldl (register_one context) st) (known, [])

/-- Modelled from the spec: a `new` statement whose would-be child address is
pending a Replacement uses the replacement's supertype reference, else the
literally named class (the address-keyed lookup in `make_instance`'s `new`
handling, whose surrounding code is not intact in the provided sources). -/
def choose_super (known : List (PyStr × ReplacementM)) (new_ref_addr : PyStr)
    (literal : Ref) : Ref :=
  match alookup known new_ref_addr with
  | some repl => repl.new_super_ref
  | none => literal

theorem foldl_foldl_flatten {β σ : Type} (g : σ → β → σ) :
    ∀ (objs : List (List β)) (init : σ),
      objs.foldl (fun st l => l.foldl g st) init = objs.flatten.foldl g init := by
  intro objs
  induction objs with
  | nil => intro init; rfl
  | cons l rest ih =>
    intro init
    simp only [List.foldl_cons, List.flatten_cons, List.foldl_append]
    exact ih (l.foldl g init)

theorem register_fold_facts (context : PyStr)
    (rrs : List (Ref × ReplacementM)) :
    ∀ (st : List (PyStr × ReplacementM) × List PyStr),
      (∀ a ∈ st.2, (alookup st.1 a).isSome = true) →
      (∀ a ∈ (rrs.foldl (register_one context) st).2,
        (alookup (rrs.foldl (register_one context) st).1 a).isSome = true) ∧
      (∀ k, (∀ rr ∈ rrs, k ≠ add_instance context (joinDots rr.1)) →
        alookup (rrs.foldl (register_one context) st).1 k = alookup st.1 k) ∧
      (∀ k, (alookup st.1 k).isSome = true →
        (alookup (rrs.foldl (register_one context) st).1 k).isSome = true) ∧
      (∀ a, a ∈ (rrs.foldl (register_one context) st).2 →
        a ∈ st.2 ∨ (alookup st.1 a = none ∧
          ∃ rr ∈ rrs, a = add_instance context (joinDots rr.1))) ∧
      (st.2.Nodup → (rrs.foldl (register_one context) st).2.Nodup) := by
  induction rrs with
  | nil =>
    intro st hinv
    exact ⟨hinv, fun k _ => rfl, fun k h => h, fun a ha => Or.inl ha, fun h => h⟩
  | cons rr rest ih =>
    intro st hinv
    set addr := add_instance context (joinDots rr.1) with haddr
    by_cases hpresent : (alookup st.1 addr).isSome = true
    · have hstep : register_one context st rr = st := by
        unfold register_one
        rw [← haddr, if_pos hpresent]
      simp only [List.foldl_cons, hstep]
      obtain ⟨i1, i2, i3, i4, i5⟩ := ih st hinv
      refine ⟨i1, ?_, i3, ?_, i5⟩
      · intro k hk
        exact i2 k (fun rr2 h2 => hk rr2 (List.mem_cons_of_mem rr h2))
      · intro a ha
        rcases i4 a ha with h | ⟨hnone, rr2, h2, h3⟩
        · exact Or.inl h
        · exact Or.inr ⟨hnone, rr2, List.mem_cons_of_mem rr h2, h3⟩
    · have hstep : register_one context st rr
          = (dict_set st.1 addr rr.2, st.2 ++ [addr]) := by
        unfold register_one
        rw [← haddr, if_neg hpresent]
      have hnone : alookup st.1 addr = none := by
        cases hl : alookup st.1 addr with
        | none => rfl
        | some v => rw [hl] at hpresent; exact absurd rfl hpresent
      have hinv2 : ∀ a ∈ (dict_set st.1 addr rr.2, st.2 ++ [addr]).2,
          (alookup (dict_set st.1 addr rr.2, st.2 ++ [addr]).1 a).isSome = true := by
        intro a ha
        rcases List.mem_append.mp ha with hmem | hmem
        · exact alookup_dict_set_isSome_mono st.1 addr a rr.2 (hinv a hmem)
        · rcases List.mem_singleton.mp hmem with rfl
          rw [alookup_dict_set_self]
          rfl
      obtain ⟨i1, i2, i3, i4, i5⟩ := ih (dict_set st.1 addr rr.2, st.2 ++ [addr]) hinv2
      simp only [List.foldl_cons, hstep]
      refine ⟨i1, ?_, ?_, ?_, ?_⟩
      · intro k hk
        have hkaddr : k ≠ addr := hk rr (List.mem_cons_self rr rest)
        rw [i2 k (fun rr2 h2 => hk rr2 (List.mem_cons_of_mem rr h2))]
        exact alookup_dict_set_ne st.1 addr k rr.2 hkaddr
      · intro k hks
        exact i3 k (alookup_dict_set_isSome_mono st.1 addr k rr.2 hks)
      · intro a ha
        rcases i4 a ha with hmem | ⟨hnone2, rr2, h2, h3⟩
        · rcases List.mem_append.mp hmem with hmem2 | hmem2
          · exact Or.inl hmem2
          · rcases List.mem_singleton.mp hmem2 with rfl
            exact Or.inr ⟨hnone, rr, List.mem_cons_self rr rest, rfl⟩
        · refine Or.inr ⟨?_, rr2, List.mem_cons_of_mem rr h2, h3⟩
          cases hl : alookup st.1 a with
          | none => rfl
          | some v =>
            have := alookup_dict_set_isSome_mono st.1 addr a rr.2 (by rw [hl]; rfl)
            rw [hnone2] at this
            exact absurd this (by simp)
      · intro hnodup
        refine i5 ?_
        refine List.Nodup.append hnodup (List.nodup_singleton addr) ?_
        intro x hx hx2
        rcases List.mem_singleton.mp hx2 with rfl
        have := hinv _ hx
        rw [hnone] at this
        exact absurd this (by simp)

/-- C3: every replacement registered by `apply_replacements_from_objs` while
making one instance was not already pending, is pending while the children
are built, is commanded at most once, and is gone from the pending map after
`make_instance`'s clean-up pops the commanded keys; and a pending
replacement registered under one enclosing instance context never matches
the child address formed under a different context, so a same-named child of
an unrelated block keeps its literally declared supertype. -/
theorem replacements_scoped (f e : PyStr) (segs1 segs2 : List PyStr)
    (objs : List (List (Ref × ReplacementM)))
    (known : List (PyStr × ReplacementM)) (seg : PyStr) (literal : Ref)
    (hf : ':' ∉ f) (he : ':' ∉ e)
    (hsegs1 : ∀ s ∈ segs1, GoodSeg s) (hsegs2 : ∀ s ∈ segs2, GoodSeg s)
    (hrefs : ∀ l ∈ objs, ∀ rr ∈ l, ∃ x, rr.1 = [x] ∧ GoodSeg x)
    (hne : ctx_addr f e segs1 ≠ ctx_addr f e segs2)
    (hseg : GoodSeg seg)
    (hfresh : alookup known (add_instance (ctx_addr f e segs2) seg) = none) :
    (∀ a ∈ (apply_replacements_from_objs (ctx_addr f e segs1) objs known).2,
      alookup known a = none ∧
      (alookup (apply_replacements_from_objs (ctx_addr f e segs1) objs known).1
        a).isSome = true ∧
      alookup (pop_commanded
        (apply_replacements_from_objs (ctx_addr f e segs1) objs known).1
        (apply_replacements_from_objs (ctx_addr f e segs1) objs known).2)
        a = none) ∧
    (apply_replacements_from_objs (ctx_addr f e segs1) objs known).2.Nodup ∧
    choose_super (apply_replacements_from_objs (ctx_addr f e segs1) objs known).1
      (add_instance (ctx_addr f e segs2) seg) literal = literal := by
  have hflat : apply_replacements_from_objs (ctx_addr f e segs1) objs known
      = objs.flatten.foldl (register_one (ctx_addr f e segs1)) (known, []) := by
    unfold apply_replacements_from_objs
    exact foldl_foldl_flatten (register_one (ctx_addr f e segs1)) objs (known, [])
  have hfacts := register_fold_facts (ctx_addr f e segs1) objs.flatten (known, [])
    (fun a ha => absurd ha (List.not_mem_nil a))
  obtain ⟨i1, i2, i3, i4, i5⟩ := hfacts
  refine ⟨?_, ?_, ?_⟩
  · intro a ha
    rw [hflat] at ha
    refine ⟨?_, ?_, ?_⟩
    · rcases i4 a ha with hmem | ⟨hnone, _⟩
      · exact absurd hmem (List.not_mem_nil a)
      · exact hnone
    · rw [hflat]
      exact i1 a ha
    · rw [hflat]
      exact pop_commanded_clears _ _ a ha
  · rw [hflat]
    exact i5 List.nodup_nil
  · rw [hflat]
    unfold choose_super
    have hother : ∀ rr ∈ objs.flatten,
        add_instance (ctx_addr f e segs2) seg
          ≠ add_instance (ctx_addr f e segs1) (joinDots rr.1) := by
      intro rr hrr
      obtain ⟨l, hl, hrrl⟩ := List.mem_flatten.mp hrr
      obtain ⟨x, hx, hgood⟩ := hrefs l hl rr hrrl
      rw [hx]
      intro hcontra
      have h1 := get_parent_add_instance_ctx f e segs2 seg hf he hsegs2 hseg
      have h2 := get_parent_add_instance_ctx f e segs1 (joinDots [x]) hf he hsegs1
        (by simpa [joinDots] using hgood)
      rw [hcontra] at h1
      rw [h1] at h2
      exact hne (Option.some.inj h2).symm
    rw [i2 (add_instance (ctx_addr f e segs2) seg)
      (fun rr hrr => hother rr hrr), hfresh]

/-- Witness for C3: a retype of child `b` registered inside `"f:e::q"` is
commanded, pending, cleared after the pop, and does not affect the
same-named child of the unrelated instance `"f:e::z"`. -/
theorem replacements_scoped_witness :
    (∀ a ∈ (apply_replacements_from_objs (ctx_addr ['f'] ['e'] [['q']])
        [[([['b']], ReplacementM.mk [['Y']])]] []).2,
      alookup ([] : List (PyStr × ReplacementM)) a = none ∧
      (alookup (apply_replacements_from_objs (ctx_addr ['f'] ['e'] [['q']])
        [[([['b']], ReplacementM.mk [['Y']])]] []).1 a).isSome = true ∧
      alookup (pop_commanded
        (apply_replacements_from_objs (ctx_addr ['f'] ['e'] [['q']])
          [[([['b']], ReplacementM.mk [['Y']])]] []).1
        (apply_replacements_from_objs (ctx_addr ['f'] ['e'] [['q']])
          [[([['b']], ReplacementM.mk [['Y']])]] []).2) a = none) ∧
    (apply_replacements_from_objs (ctx_addr ['f'] ['e'] [['q']])
      [[([['b']], ReplacementM.mk [['Y']])]] []).2.Nodup ∧
    choose_super (apply_replacements_from_objs (ctx_addr ['f'] ['e'] [['q']])
        [[([['b']], ReplacementM.mk [['Y']])]] []).1
      (add_instance (ctx_addr ['f'] ['e'] [['z']]) ['b']) [['X']] = [['X']] :=
  replacements_scoped ['f'] ['e'] [['q']] [['z']]
    [[([['b']], ReplacementM.mk [['Y']])]] [] ['b'] [['X']]
    (by decide) (by decide) (by decide) (by decide)
    (by intro l hl rr hrr
        simp at hl
        subst hl
        simp at hrr
        exact ⟨['b'], by rw [hrr], by decide⟩)
    (by decide) (by decide) (by decide)

end Atopile
